import Mathlib

/-!
# Verification of the three-rotor Enigma-class cipher core

A shallow embedding of the cipher core described by the repository's
specification: rotors with wiring, notch, ring setting and rotational
position; a plugboard; a fixed reflector; and the machine orchestrating
per-character stepping and the signal path.  The repository ships the
tests, debug drivers and documentation of `enigma.js`; the machine itself
is reconstructed here from the specification together with the code
excerpts quoted verbatim in the repository's bug-fix documentation
(`stepRotors`, `encryptChar`) and in the test suite (rotor constructor,
wiring of rotor I, the notch letters Q/E/V).

Machine state is modelled with value semantics: every stateful operation
returns the updated machine alongside its result.
-/

set_option maxHeartbeats 1000000
set_option maxRecDepth 100000

/-- The 26-letter uppercase alphabet, as in the source (`const alphabet = ...`). -/
def alphabet : List Char := "ABCDEFGHIJKLMNOPQRSTUVWXYZ".toList

/-- JavaScript-style always-nonnegative modulus, `mod(n, m) = ((n % m) + m) % m`. -/
def jsmod (n m : Int) : Int := ((n % m) + m) % m

/-- Modelled from the spec: wiring of historical rotor I (also quoted in
`src/6/test.js` as `'EKMFLGDQVZNTOWYHXUSPAIBRCJ'`). -/
def rotorIWiring : List Char := "EKMFLGDQVZNTOWYHXUSPAIBRCJ".toList

/-- Modelled from the spec: wiring of historical rotor II (notch `E`, as stated
in `src/6/test.js` and `src/6/debug_stepping.js`). -/
def rotorIIWiring : List Char := "AJDKSIRUXBLHWTMCQGZNPYFVOE".toList

/-- Modelled from the spec: wiring of historical rotor III (notch `V`, as stated
in `src/6/debug_stepping.js`). -/
def rotorIIIWiring : List Char := "BDFHJLCPRTXVZNYEIWGAKMUSQO".toList

/-- Modelled from the spec: the rotor wiring table — "static historical data
(the three standard wirings and their notch letters)" (§2); notch letters
Q(16), E(4), V(21) per `src/6/debug_stepping.js`. -/
def ROTORS : List (List Char × Char) :=
  [(rotorIWiring, 'Q'), (rotorIIWiring, 'E'), (rotorIIIWiring, 'V')]

/-- Modelled from the spec: the reflector's fixed table — "a fixed involutive
permutation of the alphabet with no fixed points" (§3), the standard
historical reflector B table. -/
def REFLECTOR : List Char := "YRUHQSLDPXNGOKMIEBFZCWVJAT".toList

/-- A rotor: fixed substitution wiring, notch letter, ring setting, and a
mutable rotational position (spec §3). -/
structure Rotor where
  wiring : List Char
  notch : Char
  ringSetting : Nat
  position : Nat
deriving DecidableEq

/-- `step()`: `position = (position + 1) mod 26` (spec §4.1). -/
def Rotor.step (ro : Rotor) : Rotor :=
  { ro with position := (ro.position + 1) % 26 }

/-- `atNotch()`: compares the letter at the raw rotational position with the
notch letter, as in the source (`alphabet[this.position] === this.notch`);
an out-of-range position reads as a non-letter and never matches. -/
def Rotor.atNotch (ro : Rotor) : Bool :=
  alphabet.getD ro.position ' ' == ro.notch

/-- Modelled from the spec: the rotor's forward contact map, `enigma.js`
`Rotor.forward` not being under `src/`.  Spec §4.1: "shift the input by
`(position - ringSetting)`, look up `wiring`, then shift back by the same
amount (mod 26)".  `rotateMap w d` is that map for shift `d`. -/
def rotateMap (w : List Char) (d : Int) (c : Char) : Char :=
  alphabet.getD
    (jsmod ((alphabet.indexOf (w.getD (jsmod ((alphabet.indexOf c : Int) + d) 26).toNat 'A') : Int) - d) 26).toNat
    'A'

/-- Modelled from the spec: the rotor's backward contact map, `enigma.js`
`Rotor.backward` not being under `src/`.  Spec §4.1: "identical shifting,
but using the inverse of `wiring`" — the inverse lookup is by index of the
letter inside the wiring. -/
def rotateMapInv (w : List Char) (d : Int) (c : Char) : Char :=
  alphabet.getD
    (jsmod ((w.indexOf (alphabet.getD (jsmod ((alphabet.indexOf c : Int) + d) 26).toNat 'A') : Int) - d) 26).toNat
    'A'

/-- `forward(c)`: forward map at the rotor's current rotation and ring setting. -/
def Rotor.forward (ro : Rotor) (c : Char) : Char :=
  rotateMap ro.wiring ((ro.position : Int) - (ro.ringSetting : Int)) c

/-- `backward(c)`: backward map at the rotor's current rotation and ring setting. -/
def Rotor.backward (ro : Rotor) (c : Char) : Char :=
  rotateMapInv ro.wiring ((ro.position : Int) - (ro.ringSetting : Int)) c

/-- `plugboardSwap(c, pairs)` from the source: scan the pairs, return the
partner of the first pair containing `c`, else `c` unchanged. -/
def plugboardSwap (c : Char) : List (Char × Char) → Char
  | [] => c
  | (a, b) :: rest =>
    if c = a then b else if c = b then a else plugboardSwap c rest

/-- `reflect(c)`: table lookup in the fixed reflector table, as inlined in the
source's `encryptChar` (`REFLECTOR[alphabet.indexOf(c)]`). -/
def reflect (c : Char) : Char :=
  REFLECTOR.getD (alphabet.indexOf c) 'A'

/-- The machine: an ordered triple of rotors (left, middle, right — the
source's `rotors[0..2]`) and the plugboard pairs (spec §3). -/
structure Enigma where
  left : Rotor
  mid : Rotor
  right : Rotor
  plugboardPairs : List (Char × Char)
deriving DecidableEq

/-- `stepRotors()` as quoted in the repository's bug-fix documentation:
capture the notch state of the right and middle rotors before any stepping,
then step left iff the middle was at its notch, step middle iff the right or
the middle was at its notch, and always step right. -/
def stepRotors (m : Enigma) : Enigma :=
  let stepMiddle := m.right.atNotch
  let stepLeft := m.mid.atNotch
  let m1 := if stepLeft then { m with left := m.left.step } else m
  let m2 := if stepMiddle || stepLeft then { m1 with mid := m1.mid.step } else m1
  { m2 with right := m2.right.step }

/-- The stepped machine's signal path for one letter (the body of the source's
`encryptChar` after the guard and stepping): plugboard, then forward through
right, middle, left rotors, reflector, backward through left, middle, right,
then plugboard again. -/
def encode (m : Enigma) (c : Char) : Char :=
  plugboardSwap
    (m.right.backward (m.mid.backward (m.left.backward
      (reflect (m.left.forward (m.mid.forward (m.right.forward
        (plugboardSwap c m.plugboardPairs))))))))
    m.plugboardPairs

/-- `encryptChar(c)` as quoted in the repository's bug-fix documentation:
non-letters are returned unchanged with no stepping side effect; letters
first step the rotors, then traverse the signal path at the stepped state. -/
def encryptChar (m : Enigma) (c : Char) : Char × Enigma :=
  if c ∈ alphabet then
    (encode (stepRotors m) c, stepRotors m)
  else
    (c, m)

/-- The character-mapping stage of `process`
(`.split('').map(c => this.encryptChar(c)).join('')`), with the machine
state threaded left to right. -/
def processChars (m : Enigma) : List Char → List Char × Enigma
  | [] => ([], m)
  | c :: cs =>
    let r := encryptChar m c
    let rest := processChars r.2 cs
    (r.1 :: rest.1, rest.2)

/-- `process(text)` from the source: upper-case the text, then map
`encryptChar` over its characters. -/
def process (m : Enigma) (s : String) : String × Enigma :=
  let r := processChars m (s.toList.map Char.toUpper)
  (String.mk r.1, r.2)

/-- The observable state of the machine: the triple of raw rotor positions
(left, middle, right). -/
def positions (m : Enigma) : Nat × Nat × Nat :=
  (m.left.position, m.mid.position, m.right.position)

/-- Rotor construction from the wiring table
(`new Rotor(ROTORS[id].wiring, ROTORS[id].notch, ringSettings[i], positions[i])`). -/
def mkRotor (id : Nat) (ring pos : Nat) : Rotor :=
  let rw := ROTORS.getD id (rotorIWiring, 'Q')
  ⟨rw.1, rw.2, ring, pos⟩

/-- The rotational position of a rotor's notch letter (spec §3,
`notchLetter / notchPosition`). -/
def notchPosition (id : Nat) : Nat :=
  alphabet.indexOf (ROTORS.getD id (rotorIWiring, 'Q')).2

/-- The letters occurring in a plugboard pair list, in order. -/
def plugLetters : List (Char × Char) → List Char
  | [] => []
  | p :: ps => p.1 :: p.2 :: plugLetters ps

/-- A well-formed plugboard configuration (spec §3/§4.2): every pair letter is
an uppercase letter, no letter appears in more than one pair, and no letter
is paired with itself. -/
def plugOk (ps : List (Char × Char)) : Prop :=
  (∀ y ∈ plugLetters ps, y ∈ alphabet) ∧ (plugLetters ps).Nodup

instance (ps : List (Char × Char)) : Decidable (plugOk ps) := by
  unfold plugOk; infer_instance

/-- Modelled from the spec: the construction contract (§6) with its
construction-time validation (§7), `enigma.js` not being under `src/`:
an unknown rotor identifier, a position or ring setting outside `[0,25]`,
or a malformed/conflicting plugboard is rejected immediately with a
descriptive error; otherwise the machine is assembled from the wiring table. -/
def buildEnigma (ids pos rings : Nat × Nat × Nat) (pairs : List (Char × Char)) :
    Except String Enigma :=
  if ¬(ids.1 < 3 ∧ ids.2.1 < 3 ∧ ids.2.2 < 3) then
    .error "unknown rotor identifier"
  else if ¬(pos.1 ≤ 25 ∧ pos.2.1 ≤ 25 ∧ pos.2.2 ≤ 25) then
    .error "rotor position out of range 0..25"
  else if ¬(rings.1 ≤ 25 ∧ rings.2.1 ≤ 25 ∧ rings.2.2 ≤ 25) then
    .error "ring setting out of range 0..25"
  else if ¬plugOk pairs then
    .error "malformed or conflicting plugboard pairs"
  else
    .ok ⟨mkRotor ids.1 rings.1 pos.1, mkRotor ids.2.1 rings.2.1 pos.2.1,
         mkRotor ids.2.2 rings.2.2 pos.2.2, pairs⟩

/-- A valid configuration, written from the spec's failure taxonomy (§7): rotor
identifiers known, positions and ring settings within `[0,25]`, plugboard
pairs well formed. -/
def goodConfig (ids pos rings : Nat × Nat × Nat) (pairs : List (Char × Char)) : Prop :=
  (ids.1 < 3 ∧ ids.2.1 < 3 ∧ ids.2.2 < 3) ∧
  (pos.1 ≤ 25 ∧ pos.2.1 ≤ 25 ∧ pos.2.2 ≤ 25) ∧
  (rings.1 ≤ 25 ∧ rings.2.1 ≤ 25 ∧ rings.2.2 ≤ 25) ∧
  plugOk pairs

instance (ids pos rings : Nat × Nat × Nat) (pairs : List (Char × Char)) :
    Decidable (goodConfig ids pos rings pairs) := by
  unfold goodConfig; infer_instance

/-- A rotor wiring drawn from the machine's fixed wiring table. -/
def WiringOk (w : List Char) : Prop :=
  w = rotorIWiring ∨ w = rotorIIWiring ∨ w = rotorIIIWiring

instance (w : List Char) : Decidable (WiringOk w) := by
  unfold WiringOk; infer_instance

/-- A machine whose rotors carry table wirings and whose plugboard is well
formed — the shape every successfully constructed machine has, preserved by
stepping. -/
def machineOk (m : Enigma) : Prop :=
  WiringOk m.left.wiring ∧ WiringOk m.mid.wiring ∧ WiringOk m.right.wiring ∧
    plugOk m.plugboardPairs

instance (m : Enigma) : Decidable (machineOk m) := by
  unfold machineOk; infer_instance

/-- The machine built from rotors I, II, III at all-zero positions and rings
with an empty plugboard; used to instantiate hypotheses of the theorems
below at a concrete machine. -/
def sampleMachine : Enigma :=
  ⟨mkRotor 0 0 0, mkRotor 1 0 0, mkRotor 2 0 0, []⟩


/-! ## Arithmetic facts about the JavaScript modulus -/

theorem jsmod_nonneg (n : Int) : 0 ≤ jsmod n 26 := by unfold jsmod; omega

theorem jsmod_lt (n : Int) : jsmod n 26 < 26 := by unfold jsmod; omega

theorem jsmod_add_red (x d : Int) : jsmod (x + jsmod d 26) 26 = jsmod (x + d) 26 := by
  unfold jsmod; omega

theorem jsmod_sub_red (x d : Int) : jsmod (x - jsmod d 26) 26 = jsmod (x - d) 26 := by
  unfold jsmod; omega

/-- The rotor contact maps depend on the shift only modulo 26. -/
theorem rotateMap_mod (w : List Char) (d : Int) (c : Char) :
    rotateMap w (jsmod d 26) c = rotateMap w d c := by
  unfold rotateMap
  simp only [jsmod_add_red, jsmod_sub_red]

theorem rotateMapInv_mod (w : List Char) (d : Int) (c : Char) :
    rotateMapInv w (jsmod d 26) c = rotateMapInv w d c := by
  unfold rotateMapInv
  simp only [jsmod_add_red, jsmod_sub_red]

/-! ## Per-rotor inverse facts, checked exhaustively on the wiring table -/

theorem alphabet_getD_mem : ∀ k < 26, alphabet.getD k 'A' ∈ alphabet := by decide

theorem jsmod_toNat_lt (n : Int) : (jsmod n 26).toNat < 26 := by
  have h1 := jsmod_nonneg n
  have h2 := jsmod_lt n
  omega

theorem rotateMap_mem (w : List Char) (d : Int) (c : Char) :
    rotateMap w d c ∈ alphabet := by
  unfold rotateMap
  exact alphabet_getD_mem _ (jsmod_toNat_lt _)

theorem rotateMapInv_mem (w : List Char) (d : Int) (c : Char) :
    rotateMapInv w d c ∈ alphabet := by
  unfold rotateMapInv
  exact alphabet_getD_mem _ (jsmod_toNat_lt _)

theorem jsmod_cancel1 (k d : Int) (h1 : 0 ≤ k) (h2 : k < 26) :
    jsmod ((((jsmod (k + d) 26).toNat : Int)) - d) 26 = k := by
  rw [Int.toNat_of_nonneg (jsmod_nonneg _)]
  unfold jsmod
  omega

theorem jsmod_cancel2 (k d : Int) (h1 : 0 ≤ k) (h2 : k < 26) :
    jsmod ((((jsmod (k - d) 26).toNat : Int)) + d) 26 = k := by
  rw [Int.toNat_of_nonneg (jsmod_nonneg _)]
  unfold jsmod
  omega

/-! ## Table facts, checked exhaustively (26 cases each) -/

theorem alphabet_indexOf_lt : ∀ c ∈ alphabet, alphabet.indexOf c < 26 := by decide

theorem alphabet_getD_indexOf : ∀ c ∈ alphabet, alphabet.getD (alphabet.indexOf c) 'A' = c := by
  decide

theorem alphabet_indexOf_getD : ∀ k < 26, alphabet.indexOf (alphabet.getD k 'A') = k := by
  decide

theorem wiring_indexOf_getD : ∀ w, WiringOk w → ∀ k < 26, w.indexOf (w.getD k 'A') = k := by
  intro w hw
  rcases hw with h | h | h <;> subst h <;> decide

theorem wiring_getD_mem_alphabet : ∀ w, WiringOk w → ∀ k < 26, w.getD k 'A' ∈ alphabet := by
  intro w hw
  rcases hw with h | h | h <;> subst h <;> decide

theorem wiring_getD_indexOf : ∀ w, WiringOk w → ∀ c ∈ w, w.getD (w.indexOf c) 'A' = c := by
  intro w hw
  rcases hw with h | h | h <;> subst h <;> decide

theorem wiring_indexOf_lt : ∀ w, WiringOk w → ∀ c ∈ w, w.indexOf c < 26 := by
  intro w hw
  rcases hw with h | h | h <;> subst h <;> decide

theorem alphabet_mem_wiring : ∀ w, WiringOk w → ∀ k < 26, alphabet.getD k 'A' ∈ w := by
  intro w hw
  rcases hw with h | h | h <;> subst h <;> decide

/-! ## The backward map inverts the forward map (and conversely) -/

theorem rotateMapInv_rotateMap (w : List Char) (hw : WiringOk w) (d : Int)
    (c : Char) (hc : c ∈ alphabet) : rotateMapInv w d (rotateMap w d c) = c := by
  have hIlt : ((alphabet.indexOf c : Nat) : Int) < 26 := by
    exact_mod_cast alphabet_indexOf_lt c hc
  have hO : w.getD (jsmod ((alphabet.indexOf c : Int) + d) 26).toNat 'A' ∈ alphabet :=
    wiring_getD_mem_alphabet w hw _ (jsmod_toNat_lt _)
  have hOlt : ((alphabet.indexOf
      (w.getD (jsmod ((alphabet.indexOf c : Int) + d) 26).toNat 'A') : Nat) : Int) < 26 := by
    exact_mod_cast alphabet_indexOf_lt _ hO
  unfold rotateMap rotateMapInv
  rw [alphabet_indexOf_getD _ (jsmod_toNat_lt _)]
  rw [jsmod_cancel2 _ d (Int.ofNat_nonneg _) hOlt]
  rw [Int.toNat_natCast]
  rw [alphabet_getD_indexOf _ hO]
  rw [wiring_indexOf_getD w hw _ (jsmod_toNat_lt _)]
  rw [jsmod_cancel1 _ d (Int.ofNat_nonneg _) hIlt]
  rw [Int.toNat_natCast]
  exact alphabet_getD_indexOf c hc

theorem rotateMap_rotateMapInv (w : List Char) (hw : WiringOk w) (d : Int)
    (c : Char) (hc : c ∈ alphabet) : rotateMap w d (rotateMapInv w d c) = c := by
  have hIlt : ((alphabet.indexOf c : Nat) : Int) < 26 := by
    exact_mod_cast alphabet_indexOf_lt c hc
  have hO : alphabet.getD (jsmod ((alphabet.indexOf c : Int) + d) 26).toNat 'A' ∈ w :=
    alphabet_mem_wiring w hw _ (jsmod_toNat_lt _)
  have hOlt : ((w.indexOf
      (alphabet.getD (jsmod ((alphabet.indexOf c : Int) + d) 26).toNat 'A') : Nat) : Int) < 26 := by
    exact_mod_cast wiring_indexOf_lt w hw _ hO
  unfold rotateMap rotateMapInv
  rw [alphabet_indexOf_getD _ (jsmod_toNat_lt _)]
  rw [jsmod_cancel2 _ d (Int.ofNat_nonneg _) hOlt]
  rw [Int.toNat_natCast]
  rw [wiring_getD_indexOf w hw _ hO]
  rw [alphabet_indexOf_getD _ (jsmod_toNat_lt _)]
  rw [jsmod_cancel1 _ d (Int.ofNat_nonneg _) hIlt]
  rw [Int.toNat_natCast]
  exact alphabet_getD_indexOf c hc

theorem Rotor.backward_forward (ro : Rotor) (hw : WiringOk ro.wiring)
    (c : Char) (hc : c ∈ alphabet) : ro.backward (ro.forward c) = c :=
  rotateMapInv_rotateMap ro.wiring hw _ c hc

theorem Rotor.forward_backward (ro : Rotor) (hw : WiringOk ro.wiring)
    (c : Char) (hc : c ∈ alphabet) : ro.forward (ro.backward c) = c :=
  rotateMap_rotateMapInv ro.wiring hw _ c hc

theorem Rotor.forward_mem (ro : Rotor) (c : Char) : ro.forward c ∈ alphabet :=
  rotateMap_mem ro.wiring _ c

theorem Rotor.backward_mem (ro : Rotor) (c : Char) : ro.backward c ∈ alphabet :=
  rotateMapInv_mem ro.wiring _ c

/-! ## Plugboard facts -/

theorem plugboardSwap_eq_or_mem (c : Char) :
    ∀ ps : List (Char × Char), plugboardSwap c ps = c ∨ plugboardSwap c ps ∈ plugLetters ps := by
  intro ps
  induction ps with
  | nil => left; rfl
  | cons p rest ih =>
    obtain ⟨a, b⟩ := p
    by_cases h1 : c = a
    · right; simp [plugboardSwap, h1, plugLetters]
    · by_cases h2 : c = b
      · right; simp [plugboardSwap, h1, h2, plugLetters]
      · rcases ih with h | h
        · left; simpa [plugboardSwap, h1, h2] using h
        · right; simp [plugboardSwap, h1, h2, plugLetters, h]

theorem plugOk_tail {p : Char × Char} {rest : List (Char × Char)}
    (h : plugOk (p :: rest)) : plugOk rest := by
  obtain ⟨hmem, hnd⟩ := h
  simp only [plugLetters, List.nodup_cons, List.mem_cons] at hmem hnd
  exact ⟨fun y hy => hmem y (Or.inr (Or.inr hy)), hnd.2.2⟩

theorem plugboardSwap_swap {ps : List (Char × Char)} (hp : plugOk ps) (c : Char) :
    plugboardSwap (plugboardSwap c ps) ps = c := by
  induction ps with
  | nil => rfl
  | cons p rest ih =>
    obtain ⟨a, b⟩ := p
    obtain ⟨hmem, hnd⟩ := hp
    simp only [plugLetters, List.nodup_cons, List.mem_cons] at hnd
    have hab : a ≠ b := fun h => hnd.1 (Or.inl h)
    have haL : a ∉ plugLetters rest := fun h => hnd.1 (Or.inr h)
    have hbL : b ∉ plugLetters rest := hnd.2.1
    by_cases h1 : c = a
    · simp [plugboardSwap, h1, hab, hab.symm]
    · by_cases h2 : c = b
      · simp [plugboardSwap, h1, h2, hab]
      · have htail : plugOk rest := plugOk_tail ⟨hmem, by
          simp only [plugLetters, List.nodup_cons, List.mem_cons]
          exact ⟨hnd.1, hnd.2⟩⟩
        have hy := plugboardSwap_eq_or_mem c rest
        have hya : plugboardSwap c rest ≠ a := by
          rcases hy with h | h
          · rw [h]; exact h1
          · exact fun hh => haL (hh ▸ h)
        have hyb : plugboardSwap c rest ≠ b := by
          rcases hy with h | h
          · rw [h]; exact h2
          · exact fun hh => hbL (hh ▸ h)
        simp only [plugboardSwap, if_neg h1, if_neg h2, if_neg hya, if_neg hyb]
        exact ih htail

theorem plugboardSwap_mem {ps : List (Char × Char)} (hp : plugOk ps)
    {c : Char} (hc : c ∈ alphabet) : plugboardSwap c ps ∈ alphabet := by
  rcases plugboardSwap_eq_or_mem c ps with h | h
  · rw [h]; exact hc
  · exact hp.1 _ h

/-! ## Reflector facts -/

theorem reflect_reflect : ∀ c ∈ alphabet, reflect (reflect c) = c := by decide

theorem reflect_ne : ∀ c ∈ alphabet, reflect c ≠ c := by decide

theorem reflect_mem : ∀ c ∈ alphabet, reflect c ∈ alphabet := by decide

/-! ## Machine-level facts -/

theorem stepRotors_left_wiring (m : Enigma) : (stepRotors m).left.wiring = m.left.wiring := by
  rcases h1 : m.mid.atNotch <;> rcases h2 : m.right.atNotch <;>
    simp [stepRotors, h1, h2, Rotor.step]

theorem stepRotors_mid_wiring (m : Enigma) : (stepRotors m).mid.wiring = m.mid.wiring := by
  rcases h1 : m.mid.atNotch <;> rcases h2 : m.right.atNotch <;>
    simp [stepRotors, h1, h2, Rotor.step]

theorem stepRotors_right_wiring (m : Enigma) : (stepRotors m).right.wiring = m.right.wiring := by
  rcases h1 : m.mid.atNotch <;> rcases h2 : m.right.atNotch <;>
    simp [stepRotors, h1, h2, Rotor.step]

theorem stepRotors_pairs (m : Enigma) : (stepRotors m).plugboardPairs = m.plugboardPairs := by
  rcases h1 : m.mid.atNotch <;> rcases h2 : m.right.atNotch <;>
    simp [stepRotors, h1, h2, Rotor.step]

theorem machineOk_stepRotors {m : Enigma} (h : machineOk m) : machineOk (stepRotors m) := by
  obtain ⟨h1, h2, h3, h4⟩ := h
  exact ⟨stepRotors_left_wiring m ▸ h1, stepRotors_mid_wiring m ▸ h2,
    stepRotors_right_wiring m ▸ h3, stepRotors_pairs m ▸ h4⟩

theorem encode_mem {m : Enigma} (hp : plugOk m.plugboardPairs) {c : Char}
    (hc : c ∈ alphabet) : encode m c ∈ alphabet := by
  unfold encode
  exact plugboardSwap_mem hp (Rotor.backward_mem _ _)

theorem encode_encode {m : Enigma} (hm : machineOk m) {c : Char} (hc : c ∈ alphabet) :
    encode m (encode m c) = c := by
  obtain ⟨hL, hM, hR, hP⟩ := hm
  have hu : plugboardSwap c m.plugboardPairs ∈ alphabet := plugboardSwap_mem hP hc
  have hv : m.right.forward (plugboardSwap c m.plugboardPairs) ∈ alphabet :=
    Rotor.forward_mem _ _
  have hw' : m.mid.forward (m.right.forward (plugboardSwap c m.plugboardPairs)) ∈ alphabet :=
    Rotor.forward_mem _ _
  have hy : m.left.forward (m.mid.forward (m.right.forward
      (plugboardSwap c m.plugboardPairs))) ∈ alphabet := Rotor.forward_mem _ _
  unfold encode
  rw [plugboardSwap_swap hP]
  rw [Rotor.forward_backward m.right hR _ (Rotor.backward_mem _ _)]
  rw [Rotor.forward_backward m.mid hM _ (Rotor.backward_mem _ _)]
  rw [Rotor.forward_backward m.left hL _ (reflect_mem _ hy)]
  rw [reflect_reflect _ hy]
  rw [Rotor.backward_forward m.left hL _ hw']
  rw [Rotor.backward_forward m.mid hM _ hv]
  rw [Rotor.backward_forward m.right hR _ hu]
  exact plugboardSwap_swap hP c

theorem encode_ne {m : Enigma} (hm : machineOk m) {c : Char} (hc : c ∈ alphabet) :
    encode m c ≠ c := by
  obtain ⟨hL, hM, hR, hP⟩ := hm
  intro h
  have hy : m.left.forward (m.mid.forward (m.right.forward
      (plugboardSwap c m.plugboardPairs))) ∈ alphabet := Rotor.forward_mem _ _
  unfold encode at h
  have h1 := congrArg (fun z => plugboardSwap z m.plugboardPairs) h
  simp only [plugboardSwap_swap hP] at h1
  have h2 := congrArg m.right.forward h1
  rw [Rotor.forward_backward m.right hR _ (Rotor.backward_mem _ _)] at h2
  have h3 := congrArg m.mid.forward h2
  rw [Rotor.forward_backward m.mid hM _ (Rotor.backward_mem _ _)] at h3
  have h4 := congrArg m.left.forward h3
  rw [Rotor.forward_backward m.left hL _ (reflect_mem _ hy)] at h4
  exact reflect_ne _ hy h4

theorem encryptChar_letter {c : Char} (hc : c ∈ alphabet) (m : Enigma) :
    encryptChar m c = (encode (stepRotors m) c, stepRotors m) := by
  simp [encryptChar, hc]

theorem encryptChar_nonletter {c : Char} (hc : c ∉ alphabet) (m : Enigma) :
    encryptChar m c = (c, m) := by
  simp [encryptChar, hc]

theorem toUpper_of_alpha : ∀ c ∈ alphabet, c.toUpper = c := by decide

theorem map_toUpper_of_alpha {L : List Char} (h : ∀ c ∈ L, c ∈ alphabet) :
    L.map Char.toUpper = L := by
  induction L with
  | nil => rfl
  | cons c cs ih =>
    simp only [List.map_cons, List.cons.injEq]
    exact ⟨toUpper_of_alpha c (h c (List.mem_cons_self c cs)),
      ih fun x hx => h x (List.mem_cons_of_mem c hx)⟩

theorem processChars_length (m : Enigma) (L : List Char) :
    (processChars m L).1.length = L.length := by
  induction L generalizing m with
  | nil => rfl
  | cons c cs ih => simp [processChars, ih]

theorem processChars_append (m : Enigma) (xs ys : List Char) :
    processChars m (xs ++ ys) =
      ((processChars m xs).1 ++ (processChars (processChars m xs).2 ys).1,
       (processChars (processChars m xs).2 ys).2) := by
  induction xs generalizing m with
  | nil => simp [processChars]
  | cons c cs ih => simp [processChars, ih]

theorem processChars_mem {m : Enigma} (hm : machineOk m) {L : List Char}
    (h : ∀ c ∈ L, c ∈ alphabet) : ∀ c' ∈ (processChars m L).1, c' ∈ alphabet := by
  induction L generalizing m with
  | nil => intro c' hc'; simp [processChars] at hc'
  | cons c cs ih =>
    intro c' hc'
    have hc : c ∈ alphabet := h c (List.mem_cons_self c cs)
    rw [show processChars m (c :: cs) =
      (let r := encryptChar m c
       let rest := processChars r.2 cs
       (r.1 :: rest.1, rest.2)) from rfl] at hc'
    rw [encryptChar_letter hc] at hc'
    simp only [List.mem_cons] at hc'
    rcases hc' with h' | h'
    · rw [h']
      exact encode_mem (machineOk_stepRotors hm).2.2.2 hc
    · exact ih (machineOk_stepRotors hm) (fun x hx => h x (List.mem_cons_of_mem c hx)) c' h'

/-- The fresh-machine round trip on letter lists: processing a letters-only
list and then processing the resulting cipher list from the same starting
machine recovers the original list. -/
theorem processChars_roundtrip {m : Enigma} (hm : machineOk m) {L : List Char}
    (h : ∀ c ∈ L, c ∈ alphabet) :
    (processChars m ((processChars m L).1)).1 = L := by
  induction L generalizing m with
  | nil => rfl
  | cons c cs ih =>
    have hc : c ∈ alphabet := h c (List.mem_cons_self c cs)
    have hm' : machineOk (stepRotors m) := machineOk_stepRotors hm
    have he : encode (stepRotors m) c ∈ alphabet := encode_mem hm'.2.2.2 hc
    rw [show processChars m (c :: cs) =
      (let r := encryptChar m c
       let rest := processChars r.2 cs
       (r.1 :: rest.1, rest.2)) from rfl]
    rw [encryptChar_letter hc]
    rw [show processChars m (encode (stepRotors m) c :: (processChars (stepRotors m) cs).1) =
      (let r := encryptChar m (encode (stepRotors m) c)
       let rest := processChars r.2 ((processChars (stepRotors m) cs).1)
       (r.1 :: rest.1, rest.2)) from rfl]
    rw [encryptChar_letter he]
    simp only
    rw [encode_encode hm' hc]
    rw [ih hm' (fun x hx => h x (List.mem_cons_of_mem c hx))]

theorem wiring_of_lt : ∀ id < 3, WiringOk (ROTORS.getD id (rotorIWiring, 'Q')).1 := by decide

theorem buildEnigma_machineOk {ids pos rings : Nat × Nat × Nat}
    {pairs : List (Char × Char)} {m : Enigma}
    (h : buildEnigma ids pos rings pairs = .ok m) : machineOk m := by
  unfold buildEnigma at h
  split at h
  · exact absurd h (by simp)
  · split at h
    · exact absurd h (by simp)
    · split at h
      · exact absurd h (by simp)
      · split at h
        · exact absurd h (by simp)
        · rename_i h1 h2 h3 h4
          rw [not_not] at h1 h4
          obtain ⟨hi1, hi2, hi3⟩ := h1
          injection h with h'
          subst h'
          exact ⟨wiring_of_lt _ hi1, wiring_of_lt _ hi2, wiring_of_lt _ hi3, h4⟩

theorem toUpper_eq_or_alpha (c : Char) : c.toUpper = c ∨ c.toUpper ∈ alphabet := by
  by_cases h : c.toNat ≥ 97 ∧ c.toNat ≤ 122
  · right
    have hval : c.toUpper = Char.ofNat (c.toNat - 32) := by
      unfold Char.toUpper
      simp [h]
    rw [hval]
    obtain ⟨h1, h2⟩ := h
    have h65 : 65 ≤ c.toNat - 32 := by omega
    have h90 : c.toNat - 32 ≤ 90 := by omega
    generalize c.toNat - 32 = k at h65 h90
    interval_cases k <;> decide
  · left
    unfold Char.toUpper
    simp [h]

theorem toUpper_nonalpha_fix {c : Char} (h : c.toUpper ∉ alphabet) : c.toUpper = c := by
  rcases toUpper_eq_or_alpha c with h' | h'
  · exact h'
  · exact absurd h' h

/-! ## The claims -/

/-- C7: the reflector's fixed table is an involution on the 26-letter alphabet
with no fixed points: for every letter `c`, `reflect (reflect c) = c` and
`reflect c ≠ c`. -/
theorem reflector_involutive_no_fixed_point :
    ∀ c ∈ alphabet, reflect (reflect c) = c ∧ reflect c ≠ c :=
  fun c hc => ⟨reflect_reflect c hc, reflect_ne c hc⟩

/-- Witness for C7 at the concrete letter `A`. -/
theorem reflector_involutive_no_fixed_point_witness :
    'A' ∈ alphabet ∧ (reflect (reflect 'A') = 'A' ∧ reflect 'A' ≠ 'A') :=
  ⟨by decide, reflector_involutive_no_fixed_point 'A' (by decide)⟩

/-- C8: notch detection is computed on the raw rotational position only: for
every rotor, ring setting and position in range, `atNotch` is true exactly
when the position equals the rotor's notch position, and the ring setting has
no effect on the result. -/
theorem atNotch_ignores_ring :
    ∀ id < 3, ∀ r ≤ 25, ∀ p ≤ 25,
      ((mkRotor id r p).atNotch = true ↔ p = notchPosition id)
      ∧ (mkRotor id r p).atNotch = (mkRotor id 0 p).atNotch := by
  decide

/-- Witness for C8: rotor II with ring 7 at position 4 (its notch). -/
theorem atNotch_ignores_ring_witness :
    (1 < 3 ∧ 7 ≤ 25 ∧ 4 ≤ 25)
    ∧ (((mkRotor 1 7 4).atNotch = true ↔ 4 = notchPosition 1)
       ∧ (mkRotor 1 7 4).atNotch = (mkRotor 1 0 4).atNotch) :=
  ⟨by decide, atNotch_ignores_ring 1 (by decide) 7 (by decide) 4 (by decide)⟩

/-- C2: the stepping transition captures the notch state of the right and
middle rotors before any rotor moves, steps the left rotor iff the middle
rotor was at its notch, steps the middle rotor iff the right or the middle
rotor was at its notch, and always steps the right rotor; consequently, from
positions `[0,4,25]` one `encryptChar` call yields positions `[1,5,0]`. -/
theorem stepRotors_double_stepping :
    (∀ m : Enigma,
      (stepRotors m).left = (if m.mid.atNotch then m.left.step else m.left)
      ∧ (stepRotors m).mid =
          (if m.right.atNotch || m.mid.atNotch then m.mid.step else m.mid)
      ∧ (stepRotors m).right = m.right.step)
    ∧ (buildEnigma (0, 1, 2) (0, 4, 25) (0, 0, 0) []).toOption.map
        (fun m0 => positions (encryptChar m0 'A').2) = some (1, 5, 0) := by
  constructor
  · intro m
    rcases h1 : m.mid.atNotch <;> rcases h2 : m.right.atNotch <;>
      simp [stepRotors, h1, h2]
  · decide

/-- C9: for every well-formed machine state and every uppercase letter `c`,
`encryptChar` never returns `c` itself — the whole-machine letter map is
fixed-point-free because it conjugates the fixed-point-free reflector. -/
theorem encryptChar_never_identity :
    ∀ m : Enigma, machineOk m → ∀ c ∈ alphabet, (encryptChar m c).1 ≠ c := by
  intro m hm c hc
  rw [encryptChar_letter hc]
  exact encode_ne (machineOk_stepRotors hm) hc

/-- Witness for C9 at the standard machine and the letter `A`. -/
theorem encryptChar_never_identity_witness :
    machineOk sampleMachine ∧ 'A' ∈ alphabet
    ∧ (encryptChar sampleMachine 'A').1 ≠ 'A' :=
  ⟨by decide, by decide, encryptChar_never_identity sampleMachine (by decide) 'A' (by decide)⟩

/-- C10: `encryptChar` transforms only uppercase A-Z; called directly with any
character outside the uppercase alphabet (in particular a lowercase letter)
it returns that character unchanged and leaves the machine — hence all rotor
positions — unchanged; the machine's case-insensitivity comes only from
`process` upper-casing the message before mapping `encryptChar` over it. -/
theorem encryptChar_uppercase_only :
    (∀ (m : Enigma) (c : Char), c ∉ alphabet → encryptChar m c = (c, m))
    ∧ (∀ (m : Enigma) (cl cu : Char), cu ∈ alphabet → Char.toUpper cl = cu →
        process m (String.mk [cl]) = process m (String.mk [cu])) := by
  constructor
  · intro m c hc
    exact encryptChar_nonletter hc m
  · intro m cl cu hcu heq
    unfold process
    have h1 : (String.mk [cl]).toList = [cl] := rfl
    have h2 : (String.mk [cu]).toList = [cu] := rfl
    rw [h1, h2]
    simp only [List.map_cons, List.map_nil]
    rw [heq, toUpper_of_alpha cu hcu]

/-- Witness for C10: a lowercase `a` passed directly to `encryptChar` of the
standard machine, and `process` agreeing on `"a"` and `"A"`. -/
theorem encryptChar_uppercase_only_witness :
    ('a' ∉ alphabet ∧ encryptChar sampleMachine 'a' = ('a', sampleMachine))
    ∧ ('A' ∈ alphabet ∧ Char.toUpper 'a' = 'A'
       ∧ process sampleMachine (String.mk ['a']) = process sampleMachine (String.mk ['A'])) :=
  ⟨⟨by decide, encryptChar_uppercase_only.1 sampleMachine 'a' (by decide)⟩,
   ⟨by decide, by decide,
    encryptChar_uppercase_only.2 sampleMachine 'a' 'A' (by decide) (by decide)⟩⟩

/-- C4: for every machine, a character whose upper-casing is not an uppercase
letter (digit, punctuation, whitespace) is copied unchanged to the same
position of the output, and handling it causes no stepping: the machine
entering the suffix is exactly the machine that left the prefix, and
`encryptChar` on such a character returns the machine unchanged. -/
theorem nonletter_passthrough_no_stepping :
    ∀ (m : Enigma) (c : Char), Char.toUpper c ∉ alphabet →
      (∀ pre suf : List Char,
        (processChars m ((pre ++ c :: suf).map Char.toUpper)).1
          = (processChars m (pre.map Char.toUpper)).1 ++ c ::
            (processChars (processChars m (pre.map Char.toUpper)).2 (suf.map Char.toUpper)).1
        ∧ (processChars m ((pre ++ c :: suf).map Char.toUpper)).2
          = (processChars (processChars m (pre.map Char.toUpper)).2 (suf.map Char.toUpper)).2
        ∧ (processChars m (pre.map Char.toUpper)).1.length = pre.length)
      ∧ encryptChar m c = (c, m) := by
  intro m c h
  have hfix : Char.toUpper c = c := toUpper_nonalpha_fix h
  have hc : c ∉ alphabet := by rw [← hfix]; exact h
  constructor
  · intro pre suf
    have hmap : (pre ++ c :: suf).map Char.toUpper
        = pre.map Char.toUpper ++ c :: suf.map Char.toUpper := by
      rw [List.map_append, List.map_cons, hfix]
    rw [hmap, processChars_append m (pre.map Char.toUpper) (c :: suf.map Char.toUpper)]
    rw [show processChars (processChars m (pre.map Char.toUpper)).2 (c :: suf.map Char.toUpper)
        = (let r := encryptChar (processChars m (pre.map Char.toUpper)).2 c
           let rest := processChars r.2 (suf.map Char.toUpper)
           (r.1 :: rest.1, rest.2)) from rfl]
    rw [encryptChar_nonletter hc]
    exact ⟨rfl, rfl, by rw [processChars_length, List.length_map]⟩
  · exact encryptChar_nonletter hc m

/-- Witness for C4: the standard machine with `"H" ++ "!" ++ "I"`. -/
theorem nonletter_passthrough_no_stepping_witness :
    Char.toUpper '!' ∉ alphabet
    ∧ ((processChars sampleMachine ((['H'] ++ '!' :: ['I']).map Char.toUpper)).1
        = (processChars sampleMachine (['H'].map Char.toUpper)).1 ++ '!' ::
          (processChars (processChars sampleMachine (['H'].map Char.toUpper)).2
            (['I'].map Char.toUpper)).1
       ∧ (processChars sampleMachine ((['H'] ++ '!' :: ['I']).map Char.toUpper)).2
          = (processChars (processChars sampleMachine (['H'].map Char.toUpper)).2
              (['I'].map Char.toUpper)).2
       ∧ (processChars sampleMachine (['H'].map Char.toUpper)).1.length = (['H'] : List Char).length)
    ∧ encryptChar sampleMachine '!' = ('!', sampleMachine) :=
  ⟨by decide,
   (nonletter_passthrough_no_stepping sampleMachine '!' (by decide)).1 ['H'] ['I'],
   (nonletter_passthrough_no_stepping sampleMachine '!' (by decide)).2⟩

/-- C1: for every valid configuration and every message of letters A-Z, a
freshly constructed machine processes the message to a ciphertext, and a
second freshly constructed machine with the same configuration processes the
ciphertext back to exactly the message; in particular the single-character
round trip through `encryptChar` holds for every letter. -/
theorem fresh_machines_invert :
    ∀ (ids pos rings : Nat × Nat × Nat) (pairs : List (Char × Char)) (m : Enigma),
      buildEnigma ids pos rings pairs = .ok m →
      (∀ M : String, (∀ c ∈ M.toList, c ∈ alphabet) →
        (process m ((process m M).1)).1 = M)
      ∧ (∀ c ∈ alphabet, (encryptChar m ((encryptChar m c).1)).1 = c) := by
  intro ids pos rings pairs m hbuild
  have hm := buildEnigma_machineOk hbuild
  constructor
  · intro M hM
    unfold process
    simp only
    have h1 : (String.mk (processChars m (M.toList.map Char.toUpper)).1).toList
        = (processChars m (M.toList.map Char.toUpper)).1 := rfl
    rw [h1, map_toUpper_of_alpha hM]
    rw [map_toUpper_of_alpha (processChars_mem hm hM)]
    rw [processChars_roundtrip hm hM]
    cases M
    rfl
  · intro c hc
    have hm' := machineOk_stepRotors hm
    rw [encryptChar_letter hc]
    rw [encryptChar_letter (encode_mem hm'.2.2.2 hc)]
    exact encode_encode hm' hc

/-- Witness for C1: the standard configuration, message `"HI"`, letter `A`. -/
theorem fresh_machines_invert_witness :
    buildEnigma (0, 1, 2) (0, 0, 0) (0, 0, 0) [] = .ok sampleMachine
    ∧ (process sampleMachine ((process sampleMachine "HI").1)).1 = "HI"
    ∧ (encryptChar sampleMachine ((encryptChar sampleMachine 'A').1)).1 = 'A' := by
  have h : buildEnigma (0, 1, 2) (0, 0, 0) (0, 0, 0) [] = .ok sampleMachine := by rfl
  exact ⟨h, (fresh_machines_invert _ _ _ _ _ h).1 "HI" (by decide),
    (fresh_machines_invert _ _ _ _ _ h).2 'A' (by decide)⟩

/-- C5: construction validates the configuration — it succeeds exactly on good
configurations and rejects unknown rotor identifiers, out-of-range positions
or ring settings, and conflicting plugboard pairs with a nonempty descriptive
error; once construction has succeeded, `process` is total and yields an
output of the input's length on any string. -/
theorem construction_validates_config :
    ∀ (ids pos rings : Nat × Nat × Nat) (pairs : List (Char × Char)),
      ((∃ m, buildEnigma ids pos rings pairs = .ok m) ↔ goodConfig ids pos rings pairs)
      ∧ (∀ e, buildEnigma ids pos rings pairs = .error e → e ≠ "")
      ∧ (∀ m, buildEnigma ids pos rings pairs = .ok m →
          ∀ s : String, (process m s).1.length = s.length) := by
  intro ids pos rings pairs
  refine ⟨⟨?_, ?_⟩, ?_, ?_⟩
  · rintro ⟨m, hm⟩
    unfold buildEnigma at hm
    split at hm
    · exact absurd hm (by simp)
    · split at hm
      · exact absurd hm (by simp)
      · split at hm
        · exact absurd hm (by simp)
        · split at hm
          · exact absurd hm (by simp)
          · rename_i h1 h2 h3 h4
            exact ⟨not_not.mp h1, not_not.mp h2, not_not.mp h3, not_not.mp h4⟩
  · intro hg
    unfold buildEnigma
    rw [if_neg (not_not.mpr hg.1), if_neg (not_not.mpr hg.2.1),
        if_neg (not_not.mpr hg.2.2.1), if_neg (not_not.mpr hg.2.2.2)]
    exact ⟨_, rfl⟩
  · intro e he
    unfold buildEnigma at he
    split at he
    · injection he with h
      subst h
      decide
    · split at he
      · injection he with h
        subst h
        decide
      · split at he
        · injection he with h
          subst h
          decide
        · split at he
          · injection he with h
            subst h
            decide
          · exact Except.noConfusion he
  · intro m _ s
    show ((processChars m (s.toList.map Char.toUpper)).1).length = s.length
    rw [processChars_length, List.length_map]
    rfl

/-- Witness for C5: a good configuration accepted, a bad rotor identifier
rejected with a nonempty message, and length preservation on a mixed string. -/
theorem construction_validates_config_witness :
    goodConfig (0, 1, 2) (0, 0, 0) (0, 0, 0) []
    ∧ (∃ m, buildEnigma (0, 1, 2) (0, 0, 0) (0, 0, 0) [] = .ok m)
    ∧ "unknown rotor identifier" ≠ ""
    ∧ (process sampleMachine "A B!").1.length = ("A B!" : String).length := by
  have h := construction_validates_config (0, 1, 2) (0, 0, 0) (0, 0, 0) []
  have hbad := construction_validates_config (3, 1, 2) (0, 0, 0) (0, 0, 0) []
  exact ⟨by decide, h.1.mpr (by decide),
    hbad.2.1 "unknown rotor identifier" (by rfl),
    h.2.2 sampleMachine (by rfl) "A B!"⟩

/-- C3 (amended): with rotors I, II, III, positions `[0,0,0]`, ring settings
`[0,0,0]` and plugboard pairs `QW`, `ER`, the machine modelled from the
spec's signal path maps `HELLOWORLD` to `ICBDAFMYAZ`. -/
theorem process_helloworld_vector :
    (buildEnigma (0, 1, 2) (0, 0, 0) (0, 0, 0) [('Q', 'W'), ('E', 'R')]).toOption.map
      (fun m => (process m "HELLOWORLD").1) = some "ICBDAFMYAZ" := by
  decide

/-- Counterexample for C3: the same machine does not produce the README's
string `ZISNQXQKGA`. -/
theorem process_helloworld_not_spec_vector :
    (buildEnigma (0, 1, 2) (0, 0, 0) (0, 0, 0) [('Q', 'W'), ('E', 'R')]).toOption.map
      (fun m => (process m "HELLOWORLD").1) ≠ some "ZISNQXQKGA" := by
  decide

/-- Counterexample for C6: a valid configuration and a letters-only message
for which processing the message and then the resulting ciphertext on the
same, not reset, machine does return the message — rotors I, II, III at
positions `[0,2,16]`, rings `[0,0,0]`, no plugboard, message `A`. -/
theorem double_process_can_return_message :
    (∀ c ∈ ("A" : String).toList, c ∈ alphabet)
    ∧ (buildEnigma (0, 1, 2) (0, 2, 16) (0, 0, 0) []).toOption.map
        (fun m0 => (process (process m0 "A").2 ((process m0 "A").1)).1) = some "A" :=
  ⟨by decide, by decide⟩

/-- C6 (amended): a single machine instance is not in general its own inverse
because the rotors keep stepping across the two calls: with rotors I, II, III
at positions `[0,0,0]`, rings `[0,0,0]`, no plugboard, processing `HELLO`
and then the resulting ciphertext on the same machine yields `LUIRT`, not
`HELLO`. -/
theorem single_machine_not_self_inverse :
    (buildEnigma (0, 1, 2) (0, 0, 0) (0, 0, 0) []).toOption.map
      (fun m0 => (process (process m0 "HELLO").2 ((process m0 "HELLO").1)).1) = some "LUIRT"
    ∧ "LUIRT" ≠ "HELLO" :=
  ⟨by decide, by decide⟩
